import Mathlib

/-!
Verification of the SimpleFaceBlur face-detection / selection / compositing
pipeline.  Every definition below is a shallow embedding of a function of the
repository (file and line references in the doc comments); floating-point
values of the source are modelled as exact rationals, Python `int()` as
truncation toward zero, and numpy array slices as half-open index ranges.
-/

/-- A bounding box with rational corner coordinates, as handled by
`FaceBlurToolONNX.nms` (src/face_blur_onnx.py, lines 64-98): columns
x1, y1, x2, y2 of the `boxes` array. -/
structure QBox where
  x1 : ℚ
  y1 : ℚ
  x2 : ℚ
  y2 : ℚ
deriving DecidableEq, Repr

/-- `areas = (x2 - x1) * (y2 - y1)` (src/face_blur_onnx.py line 76). -/
def QBox.area (b : QBox) : ℚ := (b.x2 - b.x1) * (b.y2 - b.y1)

/-- `np.maximum` on two rationals.  (Written with `if` rather than the
lattice `max` of ℚ so that concrete instances reduce.) -/
def qmax (a b : ℚ) : ℚ := if a ≤ b then b else a

/-- `np.minimum` on two rationals. -/
def qmin (a b : ℚ) : ℚ := if a ≤ b then a else b

theorem qmax_eq_max (a b : ℚ) : qmax a b = max a b := by rw [qmax, max_def]

theorem qmin_eq_min (a b : ℚ) : qmin a b = min a b := by rw [qmin, min_def]

/-- Intersection area of two boxes: `w * h` with
`w = max(0, xx2 - xx1)`, `h = max(0, yy2 - yy1)` where `xx1 = max(x1[i], x1[j])`
etc. (src/face_blur_onnx.py lines 85-92). -/
def interArea (a b : QBox) : ℚ :=
  qmax 0 (qmin a.x2 b.x2 - qmax a.x1 b.x1) * qmax 0 (qmin a.y2 b.y2 - qmax a.y1 b.y1)

theorem interArea_eq (a b : QBox) :
    interArea a b =
      max 0 (min a.x2 b.x2 - max a.x1 b.x1) * max 0 (min a.y2 b.y2 - max a.y1 b.y1) := by
  rw [interArea]
  simp only [qmax_eq_max, qmin_eq_min]

/-- `iou = inter / (areas[i] + areas[order[1:]] - inter)`
(src/face_blur_onnx.py line 94).  Division is rational division (total, with
q / 0 = 0); the sources only reach it with non-degenerate boxes. -/
def iou (a b : QBox) : ℚ := interArea a b / (a.area + b.area - interArea a b)

/-- The default box used to read a box list at an index. -/
def QBox.zero : QBox := ⟨0, 0, 0, 0⟩

/-- The greedy suppression loop `while order.size > 0` of
`FaceBlurToolONNX.nms` (src/face_blur_onnx.py lines 81-96): take the first
remaining index, keep it, and keep iterating on the remaining indices whose
IoU with it is ≤ the threshold (`inds = np.where(iou <= iou_threshold)`).
The loop shortens `order` by at least one element per iteration, so running
it with fuel `order.length` reproduces it exactly (`nmsGo_fuel_irrel` below
shows the fuel amount is irrelevant once it is at least the list length). -/
def nmsGo (get : ℕ → QBox) (thr : ℚ) : ℕ → List ℕ → List ℕ
  | _, [] => []
  | 0, _ :: _ => []
  | fuel + 1, i :: rest =>
      i :: nmsGo get thr fuel (rest.filter (fun j => iou (get i) (get j) ≤ thr))

theorem nmsGo_fuel_irrel (get : ℕ → QBox) (thr : ℚ) :
    ∀ (f1 f2 : ℕ) (l : List ℕ), l.length ≤ f1 → l.length ≤ f2 →
      nmsGo get thr f1 l = nmsGo get thr f2 l := by
  intro f1
  induction f1 with
  | zero =>
    intro f2 l h1 _
    have : l = [] := List.eq_nil_of_length_eq_zero (Nat.le_zero.mp h1)
    subst this
    cases f2 <;> rfl
  | succ f ih =>
    intro f2 l h1 h2
    cases l with
    | nil => cases f2 <;> rfl
    | cons i rest =>
      cases f2 with
      | zero => exact absurd h2 (by simp)
      | succ f2 =>
        simp only [nmsGo]
        congr 1
        exact ih f2 _
          (le_trans (List.length_filter_le _ _) (by simpa using h1))
          (le_trans (List.length_filter_le _ _) (by simpa using h2))

/-- Insertion of an index into a list of indices arranged by descending
score, in front of the first index whose score is ≤ its own. -/
def insOrd (scores : List ℚ) (i : ℕ) : List ℕ → List ℕ
  | [] => [i]
  | j :: rest =>
      if scores.getD j 0 ≤ scores.getD i 0 then i :: j :: rest
      else j :: insOrd scores i rest

/-- `order = scores.argsort()[::-1]` (src/face_blur_onnx.py line 78): the
indices 0..n-1 arranged by descending score.  the numpy default sort leaves the
order of tied scores unspecified; an insertion sort by descending score
models it. -/
def argsortDesc (scores : List ℚ) : List ℕ :=
  (List.range scores.length).foldr (insOrd scores) []

/-- `FaceBlurToolONNX.nms(boxes, scores, iou_threshold)`
(src/face_blur_onnx.py lines 64-98): the returned `keep` list of indices. -/
def nms (boxes : List QBox) (scores : List ℚ) (thr : ℚ) : List ℕ :=
  if boxes.length = 0 then []
  else nmsGo (fun i => boxes.getD i QBox.zero) thr
    (argsortDesc scores).length (argsortDesc scores)

theorem interArea_comm (a b : QBox) : interArea a b = interArea b a := by
  rw [interArea_eq, interArea_eq]
  rw [min_comm a.x2 b.x2, max_comm a.x1 b.x1, min_comm a.y2 b.y2, max_comm a.y1 b.y1]

theorem iou_comm (a b : QBox) : iou a b = iou b a := by
  unfold iou
  rw [interArea_comm]
  ring_nf

theorem nmsGo_sublist (get : ℕ → QBox) (thr : ℚ) :
    ∀ (fuel : ℕ) (l : List ℕ), ∀ j ∈ nmsGo get thr fuel l, j ∈ l := by
  intro fuel
  induction fuel with
  | zero =>
    intro l j hj
    cases l with
    | nil => simp only [nmsGo] at hj; exact absurd hj (List.not_mem_nil j)
    | cons i rest => simp only [nmsGo] at hj; exact absurd hj (List.not_mem_nil j)
  | succ f ih =>
    intro l j hj
    cases l with
    | nil => simp only [nmsGo] at hj; exact absurd hj (List.not_mem_nil j)
    | cons i rest =>
      simp only [nmsGo] at hj
      rcases List.mem_cons.mp hj with h | h
      · exact h ▸ List.mem_cons_self i rest
      · exact List.mem_cons_of_mem i (List.mem_of_mem_filter (ih _ j h))

theorem nmsGo_pairwise (get : ℕ → QBox) (thr : ℚ) :
    ∀ (fuel : ℕ) (l : List ℕ),
      (nmsGo get thr fuel l).Pairwise (fun i j => iou (get i) (get j) ≤ thr) := by
  intro fuel
  induction fuel with
  | zero =>
    intro l
    cases l with
    | nil => simp only [nmsGo]; exact List.Pairwise.nil
    | cons i rest => simp only [nmsGo]; exact List.Pairwise.nil
  | succ f ih =>
    intro l
    cases l with
    | nil => simp only [nmsGo]; exact List.Pairwise.nil
    | cons i rest =>
      simp only [nmsGo]
      refine List.Pairwise.cons ?_ (ih _)
      intro j hj
      have hjf := nmsGo_sublist get thr _ _ j hj
      have := List.of_mem_filter hjf
      exact of_decide_eq_true this

/-- C1: for every input list of boxes (each non-degenerate, as produced by
`postprocess_output`) with scores, the set of indices kept by the greedy NMS
of `FaceBlurToolONNX.nms` with threshold 0.5 contains no two distinct entries
whose boxes have pairwise IoU exceeding 0.5. -/
theorem nms_no_high_iou_pair (boxes : List QBox) (scores : List ℚ)
    (_hv : ∀ b ∈ boxes, b.x1 < b.x2 ∧ b.y1 < b.y2)
    (i j : ℕ) (hi : i ∈ nms boxes scores (1/2)) (hj : j ∈ nms boxes scores (1/2))
    (hne : i ≠ j) :
    ¬ (1/2 : ℚ) < iou (boxes.getD i QBox.zero) (boxes.getD j QBox.zero) := by
  unfold nms at hi hj
  by_cases hb : boxes.length = 0
  · rw [if_pos hb] at hi
    exact absurd hi (List.not_mem_nil i)
  · rw [if_neg hb] at hi hj
    have hp := nmsGo_pairwise (fun i => boxes.getD i QBox.zero) (1/2)
      (argsortDesc scores).length (argsortDesc scores)
    have hsymm : Symmetric (fun i j : ℕ =>
        iou (boxes.getD i QBox.zero) (boxes.getD j QBox.zero) ≤ (1/2 : ℚ)) := by
      intro a b hab
      simpa [iou_comm] using hab
    have := List.Pairwise.forall hsymm hp hi hj hne
    exact not_lt.mpr this

/-- Concrete instantiation of C1: two slightly overlapping boxes, both kept. -/
theorem nms_no_high_iou_pair_witness :
    (0 ∈ nms [⟨0,0,10,10⟩, ⟨8,0,18,10⟩] [(9:ℚ)/10, 8/10] (1/2)) ∧
    (1 ∈ nms [⟨0,0,10,10⟩, ⟨8,0,18,10⟩] [(9:ℚ)/10, 8/10] (1/2)) ∧
    ¬ (1/2 : ℚ) < iou ([QBox.mk 0 0 10 10, QBox.mk 8 0 18 10].getD 0 QBox.zero)
        ([QBox.mk 0 0 10 10, QBox.mk 8 0 18 10].getD 1 QBox.zero) :=
  ⟨by norm_num [nms, nmsGo, argsortDesc, insOrd, iou, interArea, QBox.area, qmax, qmin,
      QBox.zero, List.filter, List.range_succ, List.foldr_append, List.getD],
   by norm_num [nms, nmsGo, argsortDesc, insOrd, iou, interArea, QBox.area, qmax, qmin,
      QBox.zero, List.filter, List.range_succ, List.foldr_append, List.getD],
   nms_no_high_iou_pair [⟨0,0,10,10⟩, ⟨8,0,18,10⟩] [(9:ℚ)/10, 8/10]
     (by intro b hb; fin_cases hb <;> exact ⟨by norm_num, by norm_num⟩) 0 1
     (by norm_num [nms, nmsGo, argsortDesc, insOrd, iou, interArea, QBox.area, qmax, qmin,
        QBox.zero, List.filter, List.range_succ, List.foldr_append, List.getD])
     (by norm_num [nms, nmsGo, argsortDesc, insOrd, iou, interArea, QBox.area, qmax, qmin,
        QBox.zero, List.filter, List.range_succ, List.foldr_append, List.getD])
     (by norm_num)⟩

/-- C8: the denominator `areas[i] + areas[j] - inter` of the IoU division in
`FaceBlurToolONNX.nms` is strictly positive for every pair of non-degenerate
boxes (the invariant `postprocess_output` guarantees for every box it passes
to NMS), so the division never divides by zero. -/
theorem iou_denominator_pos (a b : QBox)
    (ha : a.x1 < a.x2 ∧ a.y1 < a.y2) (hb : b.x1 < b.x2 ∧ b.y1 < b.y2) :
    0 < a.area + b.area - interArea a b ∧ a.area + b.area - interArea a b ≠ 0 := by
  have hwa : max 0 (min a.x2 b.x2 - max a.x1 b.x1) ≤ a.x2 - a.x1 := by
    apply max_le (le_of_lt (by linarith [ha.1]))
    have h1 : min a.x2 b.x2 ≤ a.x2 := min_le_left _ _
    have h2 : a.x1 ≤ max a.x1 b.x1 := le_max_left _ _
    linarith
  have hha : max 0 (min a.y2 b.y2 - max a.y1 b.y1) ≤ a.y2 - a.y1 := by
    apply max_le (le_of_lt (by linarith [ha.2]))
    have h1 : min a.y2 b.y2 ≤ a.y2 := min_le_left _ _
    have h2 : a.y1 ≤ max a.y1 b.y1 := le_max_left _ _
    linarith
  have hinter_le : interArea a b ≤ a.area := by
    rw [interArea_eq, QBox.area]
    exact mul_le_mul hwa hha (le_max_left 0 _) (by linarith [ha.1])
  have hbpos : 0 < b.area := by
    unfold QBox.area
    exact mul_pos (by linarith [hb.1]) (by linarith [hb.2])
  constructor
  · linarith
  · linarith

/-- Concrete instantiation of C8. -/
theorem iou_denominator_pos_witness :
    0 < QBox.area ⟨0,0,4,4⟩ + QBox.area ⟨2,2,6,6⟩ - interArea ⟨0,0,4,4⟩ ⟨2,2,6,6⟩ ∧
    QBox.area ⟨0,0,4,4⟩ + QBox.area ⟨2,2,6,6⟩ - interArea ⟨0,0,4,4⟩ ⟨2,2,6,6⟩ ≠ 0 :=
  iou_denominator_pos ⟨0,0,4,4⟩ ⟨2,2,6,6⟩ (by constructor <;> norm_num)
    (by constructor <;> norm_num)

/-- One raw model-output row after the transpose (src/face_blur_onnx.py
line 114): (x_center, y_center, width, height, confidence) in the 640×640
input space. -/
structure PredRow where
  cx : ℚ
  cy : ℚ
  w : ℚ
  h : ℚ
  conf : ℚ
deriving DecidableEq, Repr

/-- A bounding box with integer corner coordinates, as produced by the
`int(...)` casts of `postprocess_output` (src/face_blur_onnx.py lines
142-145). -/
structure IBox where
  x1 : ℤ
  y1 : ℤ
  x2 : ℤ
  y2 : ℤ
deriving DecidableEq, Repr

/-- Python `int(q)`: truncation toward zero. -/
def pyInt (q : ℚ) : ℤ := if 0 ≤ q then ⌊q⌋ else ⌈q⌉

/-- `max(0, min(v, hi))` (src/face_blur_onnx.py lines 148-151). -/
def clampI (hi v : ℤ) : ℤ := max 0 (min v hi)

/-- Decoding of one row (src/face_blur_onnx.py lines 133-151): center/size to
corners, independent per-axis rescale by `orig_w / 640` and `orig_h / 640`,
truncation to int, and clamping into `[0, orig_dim]`. -/
def decodeBox (origW origH : ℤ) (p : PredRow) : IBox :=
  let sx : ℚ := (origW : ℚ) / 640
  let sy : ℚ := (origH : ℚ) / 640
  { x1 := clampI origW (pyInt ((p.cx - p.w / 2) * sx))
    y1 := clampI origH (pyInt ((p.cy - p.h / 2) * sy))
    x2 := clampI origW (pyInt ((p.cx + p.w / 2) * sx))
    y2 := clampI origH (pyInt ((p.cy + p.h / 2) * sy)) }

/-- The collection loop of `postprocess_output` before NMS
(src/face_blur_onnx.py lines 124-158): skip rows with confidence below 0.25,
decode the rest, skip decoded boxes with `x2 <= x1 or y2 <= y1`, and collect
the surviving (box, score) pairs in order. -/
def postprocessBoxes (origW origH : ℤ) : List PredRow → List (IBox × ℚ)
  | [] => []
  | p :: rest =>
      if p.conf < 1/4 then postprocessBoxes origW origH rest
      else
        let b := decodeBox origW origH p
        if b.x2 ≤ b.x1 ∨ b.y2 ≤ b.y1 then postprocessBoxes origW origH rest
        else (b, p.conf) :: postprocessBoxes origW origH rest

theorem clampI_nonneg (hi v : ℤ) : 0 ≤ clampI hi v := le_max_left 0 _

theorem clampI_le (hi v : ℤ) (hhi : 0 ≤ hi) : clampI hi v ≤ hi :=
  max_le hhi (min_le_right v hi)

/-- C6: every (box, score) pair that `postprocess_output` passes to NMS has a
non-degenerate box within the image bounds and confidence ≥ 0.25, and the
collected list is exactly the confidence-filtered, decoded,
degeneracy-filtered row list. -/
theorem postprocess_boxes_valid (origW origH : ℤ) (hw : 0 ≤ origW) (hh : 0 ≤ origH)
    (preds : List PredRow) :
    (∀ bc ∈ postprocessBoxes origW origH preds,
      0 ≤ bc.1.x1 ∧ bc.1.x1 < bc.1.x2 ∧ bc.1.x2 ≤ origW ∧
      0 ≤ bc.1.y1 ∧ bc.1.y1 < bc.1.y2 ∧ bc.1.y2 ≤ origH ∧ 1/4 ≤ bc.2) ∧
    postprocessBoxes origW origH preds =
      ((preds.filter (fun p => decide ((1:ℚ)/4 ≤ p.conf))).map
        (fun p => (decodeBox origW origH p, p.conf))).filter
        (fun bc => decide (bc.1.x1 < bc.1.x2 ∧ bc.1.y1 < bc.1.y2)) := by
  constructor
  · intro bc hbc
    induction preds with
    | nil => rw [postprocessBoxes] at hbc; exact absurd hbc (List.not_mem_nil bc)
    | cons p rest ih =>
      rw [postprocessBoxes] at hbc
      by_cases hc : p.conf < 1/4
      · rw [if_pos hc] at hbc; exact ih hbc
      · rw [if_neg hc] at hbc
        by_cases hd : (decodeBox origW origH p).x2 ≤ (decodeBox origW origH p).x1 ∨
            (decodeBox origW origH p).y2 ≤ (decodeBox origW origH p).y1
        · rw [if_pos hd] at hbc; exact ih hbc
        · rw [if_neg hd] at hbc
          rcases List.mem_cons.mp hbc with h | h
          · subst h
            push_neg at hd
            refine ⟨clampI_nonneg _ _, hd.1, clampI_le _ _ hw,
              clampI_nonneg _ _, hd.2, clampI_le _ _ hh, not_lt.mp hc⟩
          · exact ih h
  · induction preds with
    | nil => rfl
    | cons p rest ih =>
      rw [postprocessBoxes]
      by_cases hc : p.conf < 1/4
      · rw [if_pos hc,
          List.filter_cons_of_neg (by simp only [decide_eq_true_eq, not_le]; exact hc)]
        exact ih
      · rw [if_neg hc,
          List.filter_cons_of_pos (by simp only [decide_eq_true_eq]; exact not_lt.mp hc),
          List.map_cons]
        by_cases hd : (decodeBox origW origH p).x2 ≤ (decodeBox origW origH p).x1 ∨
            (decodeBox origW origH p).y2 ≤ (decodeBox origW origH p).y1
        · rw [if_pos hd,
            List.filter_cons_of_neg (by
              simp only [decide_eq_true_eq, not_and, not_lt]
              intro hx
              rcases hd with h | h
              · exact absurd hx (not_lt.mpr h)
              · exact h)]
          exact ih
        · push_neg at hd
          rw [if_neg (by push_neg; exact hd),
            List.filter_cons_of_pos (by simp only [decide_eq_true_eq]; exact ⟨hd.1, hd.2⟩), ih]

/-- One face dictionary of `detect_faces` (src/face_blur_onnx.py lines
163-171 and 202-203): bounding box, derived area, confidence, and the ordinal
id added after sorting. -/
structure DetFace where
  x1 : ℤ
  y1 : ℤ
  x2 : ℤ
  y2 : ℤ
  area : ℚ
  conf : ℚ
  id : ℕ
deriving DecidableEq, Repr

/-- `faces.sort(key=lambda x: x["area"], reverse=True)`
(src/face_blur_onnx.py line 199): stable sort by non-increasing area. -/
def sortByAreaDesc (faces : List DetFace) : List DetFace :=
  faces.mergeSort (fun a b => decide (b.area ≤ a.area))

/-- `for i, face in enumerate(faces, 1): face["id"] = i`
(src/face_blur_onnx.py lines 202-203). -/
def assignIds (faces : List DetFace) : List DetFace :=
  List.zipWith (fun i f => { f with id := i + 1 }) (List.range faces.length) faces

/-- The ordering step of `detect_faces` (src/face_blur_onnx.py lines
193-205): sort the post-processed faces by descending area, then number them
1..N in that order. -/
def orderFaces (faces : List DetFace) : List DetFace :=
  assignIds (sortByAreaDesc faces)

theorem assignIds_length (faces : List DetFace) : (assignIds faces).length = faces.length := by
  simp [assignIds]

theorem orderFaces_length (faces : List DetFace) :
    (orderFaces faces).length = faces.length := by
  simp [orderFaces, assignIds, sortByAreaDesc]

theorem orderFaces_getElem (faces : List DetFace) (i : ℕ)
    (hi : i < (orderFaces faces).length) :
    (orderFaces faces).get ⟨i, hi⟩ =
      { (sortByAreaDesc faces).get
          ⟨i, by rw [orderFaces_length] at hi; rwa [sortByAreaDesc, List.length_mergeSort]⟩
        with id := i + 1 } := by
  have hi2 : i < (sortByAreaDesc faces).length := by
    rw [orderFaces_length] at hi; rwa [sortByAreaDesc, List.length_mergeSort]
  have hir : i < (List.range (sortByAreaDesc faces).length).length := by
    rwa [List.length_range]
  simp only [orderFaces, assignIds, List.get_eq_getElem]
  rw [List.getElem_zipWith]
  simp [List.getElem_range]

theorem sortByAreaDesc_pairwise (faces : List DetFace) :
    (sortByAreaDesc faces).Pairwise (fun a b => b.area ≤ a.area) := by
  have h := @List.sorted_mergeSort DetFace (fun a b : DetFace => decide (b.area ≤ a.area))
    (fun a b c hab hbc => by
      simp only [decide_eq_true_eq] at hab hbc ⊢
      exact le_trans hbc hab)
    (fun a b => by
      simp only [Bool.or_eq_true, decide_eq_true_eq]
      exact le_total b.area a.area)
    faces
  refine h.imp ?_
  intro a b hab
  exact of_decide_eq_true hab

/-- C2: after the sort-and-number step of `detect_faces`, areas are
non-increasing along the list (a smaller id never has a smaller area than a
larger id), the face at position i carries id i+1 (so ids are exactly 1..N),
and the face with id 1 has the maximum area of all detected faces. -/
theorem orderFaces_ids_by_area (faces : List DetFace) :
    (∀ i j (hi : i < (orderFaces faces).length) (hj : j < (orderFaces faces).length),
      i ≤ j → ((orderFaces faces).get ⟨j, hj⟩).area ≤ ((orderFaces faces).get ⟨i, hi⟩).area) ∧
    (∀ i (hi : i < (orderFaces faces).length), ((orderFaces faces).get ⟨i, hi⟩).id = i + 1) ∧
    (∀ (h0 : 0 < (orderFaces faces).length), ∀ f ∈ orderFaces faces,
      f.area ≤ ((orderFaces faces).get ⟨0, h0⟩).area) := by
  have hsorted := sortByAreaDesc_pairwise faces
  have hlen : (orderFaces faces).length = (sortByAreaDesc faces).length := by
    rw [orderFaces_length, sortByAreaDesc, List.length_mergeSort]
  have hmain : ∀ i j (hi : i < (orderFaces faces).length) (hj : j < (orderFaces faces).length),
      i ≤ j → ((orderFaces faces).get ⟨j, hj⟩).area ≤ ((orderFaces faces).get ⟨i, hi⟩).area := by
    intro i j hi hj hij
    rw [orderFaces_getElem faces i hi, orderFaces_getElem faces j hj]
    rcases eq_or_lt_of_le hij with h | h
    · subst h; exact le_refl _
    · have := (List.pairwise_iff_getElem.mp hsorted) i j
        (by rw [← hlen]; exact hi) (by rw [← hlen]; exact hj) h
      simpa using this
  refine ⟨hmain, ?_, ?_⟩
  · intro i hi
    rw [orderFaces_getElem faces i hi]
  · intro h0 f hf
    rcases List.mem_iff_get.mp hf with ⟨⟨i, hilt⟩, hget⟩
    have := hmain 0 i h0 hilt (Nat.zero_le i)
    rw [hget] at this
    exact this

/-- Concrete instantiation of C2: the spec scenario of a 5000 px² face and a
20000 px² face — the larger face receives id 1 and the larger area. -/
theorem orderFaces_ids_by_area_witness :
    ((orderFaces [⟨0, 0, 100, 50, 5000, 9/10, 0⟩, ⟨0, 0, 200, 100, 20000, 8/10, 0⟩]).get
      ⟨1, by simp [orderFaces_length]⟩).area ≤
    ((orderFaces [⟨0, 0, 100, 50, 5000, 9/10, 0⟩, ⟨0, 0, 200, 100, 20000, 8/10, 0⟩]).get
      ⟨0, by simp [orderFaces_length]⟩).area ∧
    ((orderFaces [⟨0, 0, 100, 50, 5000, 9/10, 0⟩, ⟨0, 0, 200, 100, 20000, 8/10, 0⟩]).get
      ⟨0, by simp [orderFaces_length]⟩).id = 1 :=
  ⟨(orderFaces_ids_by_area _).1 0 1 (by simp [orderFaces_length])
      (by simp [orderFaces_length]) (by norm_num),
   (orderFaces_ids_by_area _).2.1 0 (by simp [orderFaces_length])⟩

/-- Concrete instantiation of C6: one confident centered row, one low-confidence
row, one degenerate row, in a 1280×960 image. -/
theorem postprocess_boxes_valid_witness :
    (∀ bc ∈ postprocessBoxes 1280 960
        [⟨320, 320, 100, 100, 9/10⟩, ⟨320, 320, 100, 100, 1/10⟩, ⟨320, 320, 0, 0, 9/10⟩],
      0 ≤ bc.1.x1 ∧ bc.1.x1 < bc.1.x2 ∧ bc.1.x2 ≤ 1280 ∧
      0 ≤ bc.1.y1 ∧ bc.1.y1 < bc.1.y2 ∧ bc.1.y2 ≤ 960 ∧ 1/4 ≤ bc.2) ∧
    postprocessBoxes 1280 960
        [⟨320, 320, 100, 100, 9/10⟩, ⟨320, 320, 100, 100, 1/10⟩, ⟨320, 320, 0, 0, 9/10⟩] =
      (([⟨320, 320, 100, 100, 9/10⟩, ⟨320, 320, 100, 100, 1/10⟩,
          (⟨320, 320, 0, 0, 9/10⟩ : PredRow)].filter (fun p => decide ((1:ℚ)/4 ≤ p.conf))).map
        (fun p => (decodeBox 1280 960 p, p.conf))).filter
        (fun bc => decide (bc.1.x1 < bc.1.x2 ∧ bc.1.y1 < bc.1.y2)) :=
  postprocess_boxes_valid 1280 960 (by norm_num) (by norm_num) _

/-- Containment test of `get_face_at_position` (src/gui_modern.py line 524):
`x1 <= x <= x2 and y1 <= y <= y2`, boundary inclusive. -/
def containsPt (f : DetFace) (x y : ℤ) : Prop :=
  f.x1 ≤ x ∧ x ≤ f.x2 ∧ f.y1 ≤ y ∧ y ≤ f.y2

instance (f : DetFace) (x y : ℤ) : Decidable (containsPt f x y) := by
  rw [containsPt]; infer_instance

/-- `ModernFaceBlurGUI.get_face_at_position` (src/gui_modern.py lines
521-527): the id of the first face in list order whose box contains the
point, or none. -/
def getFaceAtPosition (faces : List DetFace) (x y : ℤ) : Option ℕ :=
  (faces.find? (fun f => decide (containsPt f x y))).map (fun f => f.id)

/-- C7: on a face list arranged by non-increasing area (the order
`detect_faces` produces), `get_face_at_position` returns none for a point
inside no box, and for a point inside at least one box it returns the id of a
containing face of maximal area among the containing faces (the first
containing face in list order). -/
theorem getFaceAtPosition_correct (faces : List DetFace) (x y : ℤ)
    (hsorted : faces.Pairwise (fun a b => b.area ≤ a.area)) :
    ((∀ f ∈ faces, ¬ containsPt f x y) → getFaceAtPosition faces x y = none) ∧
    ((∃ f ∈ faces, containsPt f x y) →
      ∃ f ∈ faces, getFaceAtPosition faces x y = some f.id ∧ containsPt f x y ∧
        ∀ g ∈ faces, containsPt g x y → g.area ≤ f.area) := by
  constructor
  · intro hnone
    have hfind : faces.find? (fun f => decide (containsPt f x y)) = none :=
      List.find?_eq_none.mpr (fun f hf => by
        simp only [decide_eq_true_eq]
        exact hnone f hf)
    rw [getFaceAtPosition, hfind]
    rfl
  · induction faces with
    | nil => rintro ⟨f, hf, -⟩; exact absurd hf (List.not_mem_nil f)
    | cons a rest ih =>
      intro hex
      by_cases ha : containsPt a x y
      · refine ⟨a, List.mem_cons_self a rest, ?_, ha, ?_⟩
        · rw [getFaceAtPosition, List.find?_cons_of_pos]
          · rfl
          · simp only [decide_eq_true_eq]; exact ha
        · intro g hg _
          rcases List.mem_cons.mp hg with h | h
          · subst h; exact le_refl _
          · exact (List.pairwise_cons.mp hsorted).1 g h
      · have hex2 : ∃ f ∈ rest, containsPt f x y := by
          rcases hex with ⟨f, hf, hfc⟩
          rcases List.mem_cons.mp hf with h | h
          · subst h; exact absurd hfc ha
          · exact ⟨f, h, hfc⟩
        rcases ih (List.pairwise_cons.mp hsorted).2 hex2 with ⟨f, hf, heq, hfc, hmax⟩
        refine ⟨f, List.mem_cons_of_mem a hf, ?_, hfc, ?_⟩
        · rw [getFaceAtPosition, List.find?_cons_of_neg]
          · exact heq
          · simp only [decide_eq_true_eq]; exact ha
        · intro g hg hgc
          rcases List.mem_cons.mp hg with h | h
          · subst h; exact absurd hgc ha
          · exact hmax g h hgc

/-- Concrete instantiation of C7: a point inside both of two nested boxes
gets the id of the larger (earlier) face; a far-away point gets none. -/
theorem getFaceAtPosition_correct_witness :
    (getFaceAtPosition
      [⟨0, 0, 20, 20, 400, 9/10, 1⟩, ⟨5, 5, 15, 15, 100, 8/10, 2⟩] 50 50 = none) ∧
    (∃ f ∈ [(⟨0, 0, 20, 20, 400, 9/10, 1⟩ : DetFace), ⟨5, 5, 15, 15, 100, 8/10, 2⟩],
      getFaceAtPosition
        [⟨0, 0, 20, 20, 400, 9/10, 1⟩, ⟨5, 5, 15, 15, 100, 8/10, 2⟩] 7 7 = some f.id ∧
      containsPt f 7 7 ∧
      ∀ g ∈ [(⟨0, 0, 20, 20, 400, 9/10, 1⟩ : DetFace), ⟨5, 5, 15, 15, 100, 8/10, 2⟩],
        containsPt g 7 7 → g.area ≤ f.area) :=
  ⟨(getFaceAtPosition_correct
      [⟨0, 0, 20, 20, 400, 9/10, 1⟩, ⟨5, 5, 15, 15, 100, 8/10, 2⟩] 50 50
      (by simp [List.pairwise_cons]; norm_num)).1
        (by intro f hf; fin_cases hf <;> decide),
   (getFaceAtPosition_correct
      [⟨0, 0, 20, 20, 400, 9/10, 1⟩, ⟨5, 5, 15, 15, 100, 8/10, 2⟩] 7 7
      (by simp [List.pairwise_cons]; norm_num)).2
        ⟨⟨0, 0, 20, 20, 400, 9/10, 1⟩, by simp, by decide⟩⟩

theorem find?_eq_get_of_first (p : DetFace → Bool) :
    ∀ (l : List DetFace) (i : ℕ) (hi : i < l.length),
      (∀ j (hj : j < l.length), j < i → p (l.get ⟨j, hj⟩) = false) →
      p (l.get ⟨i, hi⟩) = true → l.find? p = some (l.get ⟨i, hi⟩) := by
  intro l
  induction l with
  | nil => intro i hi; exact absurd hi (by simp)
  | cons a rest ih =>
    intro i hi hbefore hp
    cases i with
    | zero =>
      rw [List.find?_cons_of_pos]
      · rfl
      · exact hp
    | succ i =>
      have ha : p a = false := hbefore 0 (by simp) (Nat.succ_pos i)
      rw [List.find?_cons_of_neg _ (by rw [ha]; exact Bool.false_ne_true)]
      exact ih i (by simpa using hi)
        (fun j hj hlt => hbefore (j + 1) (by simpa using hj) (Nat.succ_lt_succ hlt)) hp

/-- C10: containment is boundary-inclusive — a point lying exactly on the
edge of a face box counts as inside, and `get_face_at_position` returns that
id of that face when no earlier face in list order contains the point. -/
theorem getFaceAtPosition_boundary (faces : List DetFace) (x y : ℤ)
    (i : ℕ) (hi : i < faces.length)
    (hvalid : (faces.get ⟨i, hi⟩).x1 ≤ (faces.get ⟨i, hi⟩).x2 ∧
      (faces.get ⟨i, hi⟩).y1 ≤ (faces.get ⟨i, hi⟩).y2)
    (hedge : ((x = (faces.get ⟨i, hi⟩).x1 ∨ x = (faces.get ⟨i, hi⟩).x2) ∧
        (faces.get ⟨i, hi⟩).y1 ≤ y ∧ y ≤ (faces.get ⟨i, hi⟩).y2) ∨
      ((y = (faces.get ⟨i, hi⟩).y1 ∨ y = (faces.get ⟨i, hi⟩).y2) ∧
        (faces.get ⟨i, hi⟩).x1 ≤ x ∧ x ≤ (faces.get ⟨i, hi⟩).x2))
    (hbefore : ∀ j (hj : j < faces.length), j < i →
      ¬ containsPt (faces.get ⟨j, hj⟩) x y) :
    getFaceAtPosition faces x y = some (faces.get ⟨i, hi⟩).id := by
  have hin : containsPt (faces.get ⟨i, hi⟩) x y := by
    rcases hedge with ⟨hx, hy1, hy2⟩ | ⟨hy, hx1, hx2⟩
    · rcases hx with h | h
      · exact ⟨le_of_eq h.symm, h ▸ hvalid.1, hy1, hy2⟩
      · exact ⟨h ▸ hvalid.1, le_of_eq h, hy1, hy2⟩
    · rcases hy with h | h
      · exact ⟨hx1, hx2, le_of_eq h.symm, h ▸ hvalid.2⟩
      · exact ⟨hx1, hx2, h ▸ hvalid.2, le_of_eq h⟩
  rw [getFaceAtPosition,
    find?_eq_get_of_first _ faces i hi
      (fun j hj hlt => by simp only [decide_eq_false_iff_not]; exact hbefore j hj hlt)
      (by simp only [decide_eq_true_eq]; exact hin)]
  rfl

/-- Concrete instantiation of C10: the point (0, 5) on the left edge of the
single face box (0,0)-(10,10) hits that face. -/
theorem getFaceAtPosition_boundary_witness :
    getFaceAtPosition [⟨0, 0, 10, 10, 100, 9/10, 1⟩] 0 5 =
      some (([(⟨0, 0, 10, 10, 100, 9/10, 1⟩ : DetFace)]).get ⟨0, by decide⟩).id :=
  getFaceAtPosition_boundary [⟨0, 0, 10, 10, 100, 9/10, 1⟩] 0 5 0 (by decide)
    (by decide) (by decide)
    (fun j hj hlt => absurd hlt (Nat.not_lt_zero j))

/-- The two tools of the GUI canvas (src/gui_modern.py): the pen selects, the
eraser deselects. -/
inductive Tool where
  | pen
  | eraser
deriving DecidableEq, Repr

/-- `ModernFaceBlurGUI.on_canvas_click` (src/gui_modern.py lines 544-568),
after coordinate conversion: return unchanged when no faces are present or no
face contains the point; otherwise add the hit id (pen) or discard it
(eraser). -/
def onCanvasClick (faces : List DetFace) (tool : Tool) (x y : ℤ)
    (sel : Finset ℕ) : Finset ℕ :=
  if faces.isEmpty then sel
  else
    match getFaceAtPosition faces x y with
    | none => sel
    | some i =>
        match tool with
        | Tool.pen => insert i sel
        | Tool.eraser => sel.erase i

/-- C9: canvas clicks are idempotent — clicking the same point twice with the
pen (ADD) yields the same selection set as clicking once, and likewise with
the eraser (REMOVE); in particular this holds for every face id hit by the
click. -/
theorem onCanvasClick_idempotent (faces : List DetFace) (tool : Tool) (x y : ℤ)
    (sel : Finset ℕ) :
    onCanvasClick faces tool x y (onCanvasClick faces tool x y sel) =
      onCanvasClick faces tool x y sel := by
  by_cases hemp : faces.isEmpty
  · simp [onCanvasClick, hemp]
  · cases hfind : getFaceAtPosition faces x y with
    | none => simp [onCanvasClick, hemp, hfind]
    | some i =>
      cases tool with
      | pen => simp [onCanvasClick, hemp, hfind, Finset.insert_idem]
      | eraser => simp [onCanvasClick, hemp, hfind, Finset.erase_idem]

/-- A pixel in BGR channel order (OpenCV layout), channel values as exact
rationals. -/
structure Pix where
  b : ℚ
  g : ℚ
  r : ℚ
deriving DecidableEq, Repr

/-- A raster: width, height, and a total pixel function (indices beyond the
size are irrelevant padding). -/
structure Image where
  w : ℕ
  h : ℕ
  pix : ℕ → ℕ → Pix

/-- `min` on ℤ, written with `if` so that concrete instances reduce. -/
def minZ (a b : ℤ) : ℤ := if a ≤ b then a else b

/-- `max` on ℤ, written with `if` so that concrete instances reduce. -/
def maxZ (a b : ℤ) : ℤ := if a ≤ b then b else a

/-- The coordinate clamp `max(0, min(dim, v))` of `_gemini_cartoonize_faces`
(src/api_server.py lines 164-168). -/
def clampZ (dim v : ℤ) : ℤ := maxZ 0 (minZ dim v)

/-- The numpy region assignment `result[y1:y2, x1:x2] = src[y1:y2, x1:x2]`
(src/api_server.py line 171): pixels inside the half-open index ranges are
taken from `src`, all others from `dst`. -/
def copyRegion (dst src : Image) (x1 y1 x2 y2 : ℕ) : Image :=
  { dst with pix := fun x y =>
      if x1 ≤ x ∧ x < x2 ∧ y1 ≤ y ∧ y < y2 then src.pix x y else dst.pix x y }

/-- The per-box body of the paste loop of `_gemini_cartoonize_faces`
(src/api_server.py lines 161-171): clamp the box to the bounds of the
original image, skip it when the clamped area is zero, else copy the region
from the cartoonized image into the accumulator. -/
def pasteBox (img cartoon : Image) (acc : Image) (bx : IBox) : Image :=
  let x1 := clampZ (img.w : ℤ) bx.x1
  let x2 := clampZ (img.w : ℤ) bx.x2
  let y1 := clampZ (img.h : ℤ) bx.y1
  let y2 := clampZ (img.h : ℤ) bx.y2
  if x1 < x2 ∧ y1 < y2 then copyRegion acc cartoon x1.toNat y1.toNat x2.toNat y2.toNat
  else acc

/-- `_gemini_cartoonize_faces(img, bboxes)` (src/api_server.py lines
126-173).  `ext` stands for the `call_gemini_cartoonize` network collaborator
(the stylized image, or none on failure), `resize` for `cv2.resize`; the
second component counts the external calls made.  An empty bbox list returns
the image untouched with no call; a failed call returns the original; else
the stylized image (resized to the original shape if needed) is pasted back
box by box over a copy of the original. -/
def geminiCartoonizeFaces (ext : Image → Option Image)
    (resize : Image → ℕ → ℕ → Image) (img : Image) (bboxes : List IBox) :
    Image × ℕ :=
  if bboxes.isEmpty then (img, 0)
  else
    match ext img with
    | none => (img, 1)
    | some c =>
        let cartoon := if c.w = img.w ∧ c.h = img.h then c else resize c img.w img.h
        (bboxes.foldl (pasteBox img cartoon) img, 1)

theorem pasteBox_outside (img cartoon acc : Image) (bx : IBox) (x y : ℕ)
    (hout : ¬ (bx.x1 ≤ (x:ℤ) ∧ (x:ℤ) < bx.x2 ∧ bx.y1 ≤ (y:ℤ) ∧ (y:ℤ) < bx.y2)) :
    (pasteBox img cartoon acc bx).pix x y = acc.pix x y := by
  rw [pasteBox]
  by_cases hc : clampZ (img.w : ℤ) bx.x1 < clampZ (img.w : ℤ) bx.x2 ∧
      clampZ (img.h : ℤ) bx.y1 < clampZ (img.h : ℤ) bx.y2
  · rw [if_pos hc, copyRegion]
    simp only
    rw [if_neg]
    intro ⟨h1, h2, h3, h4⟩
    apply hout
    have hw : (0:ℤ) ≤ (img.w : ℤ) := Int.natCast_nonneg _
    have hh : (0:ℤ) ≤ (img.h : ℤ) := Int.natCast_nonneg _
    have e1 : (clampZ (img.w : ℤ) bx.x1).toNat ≤ x := h1
    have e2 : x < (clampZ (img.w : ℤ) bx.x2).toNat := h2
    have e3 : (clampZ (img.h : ℤ) bx.y1).toNat ≤ y := h3
    have e4 : y < (clampZ (img.h : ℤ) bx.y2).toNat := h4
    rw [clampZ, maxZ, minZ] at e1 e2 e3 e4
    constructor
    · split_ifs at e1 <;> omega
    constructor
    · split_ifs at e2 <;> omega
    constructor
    · split_ifs at e3 <;> omega
    · split_ifs at e4 <;> omega
  · rw [if_neg hc]

theorem pasteBox_skip (img cartoon acc : Image) (bx : IBox)
    (hzero : ¬ (clampZ (img.w : ℤ) bx.x1 < clampZ (img.w : ℤ) bx.x2 ∧
      clampZ (img.h : ℤ) bx.y1 < clampZ (img.h : ℤ) bx.y2)) :
    pasteBox img cartoon acc bx = acc := by
  rw [pasteBox, if_neg hzero]

theorem foldl_pasteBox_outside (img cartoon : Image) (x y : ℕ) :
    ∀ (bboxes : List IBox) (acc : Image),
      (∀ bx ∈ bboxes, ¬ (bx.x1 ≤ (x:ℤ) ∧ (x:ℤ) < bx.x2 ∧ bx.y1 ≤ (y:ℤ) ∧ (y:ℤ) < bx.y2)) →
      (bboxes.foldl (pasteBox img cartoon) acc).pix x y = acc.pix x y := by
  intro bboxes
  induction bboxes with
  | nil => intro acc _; rfl
  | cons bx rest ih =>
    intro acc hout
    rw [List.foldl_cons]
    rw [ih _ (fun b hb => hout b (List.mem_cons_of_mem bx hb))]
    exact pasteBox_outside img cartoon acc bx x y (hout bx (List.mem_cons_self bx rest))

/-- C3: in STYLE_REGION (cartoon) compositing, every pixel lying outside
every target box equals the original pixel, whatever image the external
stylization produced; and a box whose clamped area is zero contributes
nothing (it is skipped). -/
theorem gemini_outside_pixels_unchanged (ext : Image → Option Image)
    (resize : Image → ℕ → ℕ → Image) (img : Image) (bboxes : List IBox) (x y : ℕ)
    (houts : ∀ bx ∈ bboxes,
      ¬ (bx.x1 ≤ (x:ℤ) ∧ (x:ℤ) < bx.x2 ∧ bx.y1 ≤ (y:ℤ) ∧ (y:ℤ) < bx.y2)) :
    (geminiCartoonizeFaces ext resize img bboxes).1.pix x y = img.pix x y ∧
    (∀ (cartoon acc : Image) (bx : IBox),
      ¬ (clampZ (img.w : ℤ) bx.x1 < clampZ (img.w : ℤ) bx.x2 ∧
        clampZ (img.h : ℤ) bx.y1 < clampZ (img.h : ℤ) bx.y2) →
      pasteBox img cartoon acc bx = acc) := by
  constructor
  · rw [geminiCartoonizeFaces]
    by_cases hemp : bboxes.isEmpty
    · rw [if_pos hemp]
    · rw [if_neg hemp]
      cases hext : ext img with
      | none => rfl
      | some c =>
        simp only
        exact foldl_pasteBox_outside img _ x y bboxes img houts
  · intro cartoon acc bx hzero
    exact pasteBox_skip img cartoon acc bx hzero

/-- Concrete instantiation of C3: a stylized image that differs everywhere
still leaves the pixel (3, 3) outside the sole box (0,0)-(2,2) unchanged. -/
theorem gemini_outside_pixels_unchanged_witness :
    (geminiCartoonizeFaces (fun _ => some ⟨4, 4, fun _ _ => ⟨5, 5, 5⟩⟩) (fun c _ _ => c)
      ⟨4, 4, fun x y => ⟨(x:ℚ), (y:ℚ), 0⟩⟩ [⟨0, 0, 2, 2⟩]).1.pix 3 3 =
    (⟨4, 4, fun x y => ⟨(x:ℚ), (y:ℚ), 0⟩⟩ : Image).pix 3 3 :=
  (gemini_outside_pixels_unchanged (fun _ => some ⟨4, 4, fun _ _ => ⟨5, 5, 5⟩⟩)
    (fun c _ _ => c) ⟨4, 4, fun x y => ⟨(x:ℚ), (y:ℚ), 0⟩⟩ [⟨0, 0, 2, 2⟩] 3 3
    (by intro bx hb; fin_cases hb; decide)).1

/-- `cv2.cvtColor(..., COLOR_BGR2RGB)` and back (src/face_blur_onnx.py lines
276 and 435): reversal of the channel order of every pixel. -/
def chanSwap (im : Image) : Image :=
  { im with pix := fun x y => ⟨(im.pix x y).r, (im.pix x y).g, (im.pix x y).b⟩ }

/-- `FaceBlurToolONNX.blur_faces_with_emoji(img, faces, start_id, end_id,
custom_emojis)` (src/face_blur_onnx.py lines 265-437): convert the image to
RGB, draw one emoji for every face whose id lies in `[start_id, end_id]`
(glyph choice, font resolution and PIL rendering are the external work of the
loop body, modelled by `drawEmoji`), and convert back to BGR. -/
def blurFacesWithEmoji (drawEmoji : Image → DetFace → Image) (img : Image)
    (faces : List DetFace) (startId endId : ℕ) : Image :=
  chanSwap (faces.foldl
    (fun im f => if startId ≤ f.id ∧ f.id ≤ endId then drawEmoji im f else im)
    (chanSwap img))

/-- `face_region = img[y1:y2, x1:x2]` (src/api_server.py line 343). -/
def extractRegion (im : Image) (x1 y1 x2 y2 : ℕ) : Image :=
  ⟨x2 - x1, y2 - y1, fun x y => im.pix (x1 + x) (y1 + y)⟩

/-- `img[y1:y2, x1:x2] = blurred` (src/api_server.py line 345): write a
same-shaped raster back into the half-open region. -/
def writeRegion (im src : Image) (x1 y1 x2 y2 : ℕ) : Image :=
  { im with pix := fun x y =>
      if x1 ≤ x ∧ x < x2 ∧ y1 ≤ y ∧ y < y2 then src.pix (x - x1) (y - y1)
      else im.pix x y }

/-- The half support width of the 99×99 kernel of
`cv2.GaussianBlur(face_region, (99, 99), 30)`. -/
def kernelRadius : ℤ := 49

/-- The kernel offset range −49..49. -/
def offs : Finset ℤ := Finset.Icc (-49) 49

/-- Modelled from the spec: the 99×99 Gaussian kernel of
`cv2.GaussianBlur(face_region, (99, 99), 30)` (src/api_server.py lines 344
and 397) is computed by OpenCV in floating point and is not part of this
repository; it is modelled as an arbitrary positive 99×99 weight grid,
normalized below — every theorem about it uses only the support radius and
the unit total weight. -/
def kw0 (dx dy : ℤ) : ℚ := 1 / (1 + dx ^ 2 + dy ^ 2)

/-- Total unnormalized kernel weight. -/
def kwSum : ℚ := ∑ dy ∈ offs, ∑ dx ∈ offs, kw0 dx dy

/-- Normalized kernel weight at offset (dx, dy). -/
def kw (dx dy : ℤ) : ℚ := kw0 dx dy / kwSum

/-- Border handling: clamp a convolution coordinate into [0, n−1]
(replication border model for the externally defined OpenCV blur). -/
def clampCoord (n : ℕ) (t : ℤ) : ℕ :=
  if t < 0 then 0 else if (n : ℤ) - 1 < t then n - 1 else t.toNat

/-- One channel of the blurred raster: convolution of the channel with the
normalized kernel, coordinates clamped at the region border. -/
def blurChan (rw rh : ℕ) (f : ℕ → ℕ → ℚ) (x y : ℕ) : ℚ :=
  ∑ dy ∈ offs, ∑ dx ∈ offs,
    kw dx dy * f (clampCoord rw ((x : ℤ) + dx)) (clampCoord rh ((y : ℤ) + dy))

/-- Modelled from the spec: `cv2.GaussianBlur(face_region, (99, 99), 30)`
(src/api_server.py lines 344 and 397), as channel-wise convolution with the
normalized kernel `kw`. -/
def gaussianBlur (im : Image) : Image :=
  ⟨im.w, im.h, fun x y =>
    ⟨blurChan im.w im.h (fun a b => (im.pix a b).b) x y,
     blurChan im.w im.h (fun a b => (im.pix a b).g) x y,
     blurChan im.w im.h (fun a b => (im.pix a b).r) x y⟩⟩

/-- The blur-mode loop of the `/blur` endpoint (src/api_server.py
lines 339-345, same loop in `/process` lines 391-398): for each selected
face, blur the extracted region and write it back at the same coordinates. -/
def blurFaces (faces : List IBox) (img : Image) : Image :=
  faces.foldl (fun im bx =>
    writeRegion im
      (gaussianBlur (extractRegion im bx.x1.toNat bx.y1.toNat bx.x2.toNat bx.y2.toNat))
      bx.x1.toNat bx.y1.toNat bx.x2.toNat bx.y2.toNat) img

/-- C4: compositing with an empty target list is the identity on every pixel
in all three modes — the blur loop, the emoji renderer (for every external
glyph-drawing behaviour), and STYLE_REGION — and in STYLE_REGION mode the
external stylization collaborator is called zero times. -/
theorem empty_targets_identity (img : Image) (ext : Image → Option Image)
    (resize : Image → ℕ → ℕ → Image) (drawEmoji : Image → DetFace → Image)
    (startId endId : ℕ) (x y : ℕ) :
    (blurFaces [] img).pix x y = img.pix x y ∧
    (blurFacesWithEmoji drawEmoji img [] startId endId).pix x y = img.pix x y ∧
    (geminiCartoonizeFaces ext resize img []).1.pix x y = img.pix x y ∧
    (geminiCartoonizeFaces ext resize img []).2 = 0 := by
  refine ⟨rfl, ?_, rfl, rfl⟩
  rw [blurFacesWithEmoji, List.foldl_nil, chanSwap, chanSwap]

theorem offs_nonempty : offs.Nonempty := by
  rw [offs]
  exact Finset.nonempty_Icc.mpr (by norm_num)

theorem kw0_pos (dx dy : ℤ) : 0 < kw0 dx dy := by
  rw [kw0]
  positivity

theorem kwSum_pos : 0 < kwSum := by
  rw [kwSum]
  exact Finset.sum_pos
    (fun dy _ => Finset.sum_pos (fun dx _ => kw0_pos dx dy) offs_nonempty) offs_nonempty

theorem kw_total : ∑ dy ∈ offs, ∑ dx ∈ offs, kw dx dy = 1 := by
  simp only [kw, ← Finset.sum_div]
  rw [show (∑ dy ∈ offs, ∑ dx ∈ offs, kw0 dx dy) = kwSum from rfl,
    div_self (ne_of_gt kwSum_pos)]

theorem clampCoord_eq (n : ℕ) (t : ℤ) (h0 : 0 ≤ t) (hn : t ≤ (n : ℤ) - 1) :
    (clampCoord n t : ℤ) = t := by
  rw [clampCoord]
  split_ifs <;> omega

theorem blurChan_const (rw0 rh : ℕ) (f : ℕ → ℕ → ℚ) (x y : ℕ) (c : ℚ)
    (hx1 : 49 ≤ x) (hx2 : x + 49 < rw0) (hy1 : 49 ≤ y) (hy2 : y + 49 < rh)
    (hconst : ∀ u v : ℕ, x - 49 ≤ u → u ≤ x + 49 → y - 49 ≤ v → v ≤ y + 49 →
      f u v = c) :
    blurChan rw0 rh f x y = c := by
  rw [blurChan]
  have hstep : ∀ dy ∈ offs, ∀ dx ∈ offs,
      kw dx dy * f (clampCoord rw0 ((x : ℤ) + dx)) (clampCoord rh ((y : ℤ) + dy)) =
        kw dx dy * c := by
    intro dy hdy dx hdx
    simp only [offs, Finset.mem_Icc] at hdy hdx
    have hcx : (clampCoord rw0 ((x : ℤ) + dx) : ℤ) = (x : ℤ) + dx :=
      clampCoord_eq _ _ (by omega) (by omega)
    have hcy : (clampCoord rh ((y : ℤ) + dy) : ℤ) = (y : ℤ) + dy :=
      clampCoord_eq _ _ (by omega) (by omega)
    congr 1
    exact hconst _ _ (by omega) (by omega) (by omega) (by omega)
  calc ∑ dy ∈ offs, ∑ dx ∈ offs,
        kw dx dy * f (clampCoord rw0 ((x : ℤ) + dx)) (clampCoord rh ((y : ℤ) + dy))
      = ∑ dy ∈ offs, ∑ dx ∈ offs, kw dx dy * c := by
        refine Finset.sum_congr rfl (fun dy hdy => Finset.sum_congr rfl (fun dx hdx => ?_))
        exact hstep dy hdy dx hdx
    _ = (∑ dy ∈ offs, ∑ dx ∈ offs, kw dx dy) * c := by
        rw [Finset.sum_mul]
        exact Finset.sum_congr rfl (fun dy _ => (Finset.sum_mul _ _ _).symm)
    _ = 1 * c := by rw [kw_total]
    _ = c := one_mul c

/-- The 301×301 test image of the C5 refutation: uniform grey except one
black pixel in the corner — a non-uniform region. -/
def testImg : Image :=
  ⟨301, 301, fun x y => if x = 0 ∧ y = 0 then ⟨0, 0, 0⟩ else ⟨100, 100, 100⟩⟩

/-- The single target box of the C5 refutation, covering the whole test
image. -/
def testBox : IBox := ⟨0, 0, 301, 301⟩

theorem testImg_blurChan (f : ℕ → ℕ → ℚ)
    (hf : ∀ u v : ℕ, 101 ≤ u → u ≤ 199 → 101 ≤ v → v ≤ 199 → f u v = 100) :
    blurChan 301 301 f 150 150 = 100 :=
  blurChan_const 301 301 f 150 150 100 (by norm_num) (by norm_num) (by norm_num)
    (by norm_num)
    (fun u v h1 h2 h3 h4 => hf u v (by omega) (by omega) (by omega) (by omega))

/-- C5 is false as stated: for the non-uniform test region (pixels at (0,0)
and (1,0) differ), the pixel (150,150) strictly inside the target box is
bit-identical to the original after the blur, because its whole 99×99 kernel
neighbourhood is uniform. -/
theorem blur_inside_differs_counterexample :
    (testBox.x1 < (150 : ℤ) ∧ (150 : ℤ) < testBox.x2 ∧
      testBox.y1 < (150 : ℤ) ∧ (150 : ℤ) < testBox.y2) ∧
    testImg.pix 0 0 ≠ testImg.pix 1 0 ∧
    (blurFaces [testBox] testImg).pix 150 150 = testImg.pix 150 150 := by
  refine ⟨by constructor <;> norm_num [testBox], ?_, ?_⟩
  · simp only [testImg]
    norm_num
  · rw [blurFaces, List.foldl_cons, List.foldl_nil, writeRegion]
    simp only
    rw [if_pos (by norm_num [testBox])]
    have hf : ∀ u v : ℕ, 101 ≤ u → u ≤ 199 → 101 ≤ v → v ≤ 199 →
        (extractRegion testImg testBox.x1.toNat testBox.y1.toNat testBox.x2.toNat
          testBox.y2.toNat).pix u v = ⟨100, 100, 100⟩ := by
      intro u v h1 h2 h3 h4
      simp only [extractRegion, testBox, testImg]
      rw [if_neg (by omega)]
    have hw : (extractRegion testImg testBox.x1.toNat testBox.y1.toNat testBox.x2.toNat
        testBox.y2.toNat).w = 301 := by simp [extractRegion, testBox]
    have hh : (extractRegion testImg testBox.x1.toNat testBox.y1.toNat testBox.x2.toNat
        testBox.y2.toNat).h = 301 := by simp [extractRegion, testBox]
    rw [gaussianBlur]
    simp only [hw, hh]
    have hfb : ∀ u v : ℕ, 101 ≤ u → u ≤ 199 → 101 ≤ v → v ≤ 199 →
        ((extractRegion testImg testBox.x1.toNat testBox.y1.toNat testBox.x2.toNat
          testBox.y2.toNat).pix u v).b = 100 :=
      fun u v h1 h2 h3 h4 => by rw [hf u v h1 h2 h3 h4]
    have hfg : ∀ u v : ℕ, 101 ≤ u → u ≤ 199 → 101 ≤ v → v ≤ 199 →
        ((extractRegion testImg testBox.x1.toNat testBox.y1.toNat testBox.x2.toNat
          testBox.y2.toNat).pix u v).g = 100 :=
      fun u v h1 h2 h3 h4 => by rw [hf u v h1 h2 h3 h4]
    have hfr : ∀ u v : ℕ, 101 ≤ u → u ≤ 199 → 101 ≤ v → v ≤ 199 →
        ((extractRegion testImg testBox.x1.toNat testBox.y1.toNat testBox.x2.toNat
          testBox.y2.toNat).pix u v).r = 100 :=
      fun u v h1 h2 h3 h4 => by rw [hf u v h1 h2 h3 h4]
    have hb := testImg_blurChan
      (fun a b => ((extractRegion testImg testBox.x1.toNat testBox.y1.toNat
        testBox.x2.toNat testBox.y2.toNat).pix a b).b) hfb
    have hg := testImg_blurChan
      (fun a b => ((extractRegion testImg testBox.x1.toNat testBox.y1.toNat
        testBox.x2.toNat testBox.y2.toNat).pix a b).g) hfg
    have hr := testImg_blurChan
      (fun a b => ((extractRegion testImg testBox.x1.toNat testBox.y1.toNat
        testBox.x2.toNat testBox.y2.toNat).pix a b).r) hfr
    have h150 : (150 : ℕ) - testBox.x1.toNat = 150 := by simp [testBox]
    have h150y : (150 : ℕ) - testBox.y1.toNat = 150 := by simp [testBox]
    rw [h150, h150y, hb, hg, hr, testImg]
    simp only
    rw [if_neg (by norm_num)]

theorem writeRegion_outside (im src : Image) (x1 y1 x2 y2 x y : ℕ)
    (h : ¬ (x1 ≤ x ∧ x < x2 ∧ y1 ≤ y ∧ y < y2)) :
    (writeRegion im src x1 y1 x2 y2).pix x y = im.pix x y := by
  rw [writeRegion]
  simp only
  rw [if_neg h]

theorem blurFaces_outside (x y : ℕ) :
    ∀ (faces : List IBox) (img : Image),
      (∀ bx ∈ faces,
        ¬ (bx.x1 ≤ (x:ℤ) ∧ (x:ℤ) < bx.x2 ∧ bx.y1 ≤ (y:ℤ) ∧ (y:ℤ) < bx.y2)) →
      (blurFaces faces img).pix x y = img.pix x y := by
  intro faces
  induction faces with
  | nil => intro img _; rfl
  | cons bx rest ih =>
    intro img hout
    rw [blurFaces, List.foldl_cons]
    rw [show List.foldl _ _ rest = blurFaces rest _ from rfl]
    rw [ih _ (fun b hb => hout b (List.mem_cons_of_mem bx hb))]
    apply writeRegion_outside
    intro ⟨h1, h2, h3, h4⟩
    exact hout bx (List.mem_cons_self bx rest) (by omega)

/-- C5 (amended): in BLUR mode every pixel outside all target boxes is
unchanged (the claim as stated, which covers all strictly-outside pixels),
and every pixel inside a target box is replaced by the corresponding pixel of
the Gaussian-blurred region — which, as the refutation above
shows, can coincide with the original value even for a non-uniform region,
namely at pixels whose whole kernel neighbourhood is uniform. -/
theorem blur_pixels_amended (faces : List IBox) (img : Image) (x y : ℕ)
    (_hvalid : ∀ bx ∈ faces, 0 ≤ bx.x1 ∧ bx.x1 < bx.x2 ∧ bx.x2 ≤ (img.w : ℤ) ∧
      0 ≤ bx.y1 ∧ bx.y1 < bx.y2 ∧ bx.y2 ≤ (img.h : ℤ))
    (houts : ∀ bx ∈ faces,
      ¬ (bx.x1 ≤ (x:ℤ) ∧ (x:ℤ) < bx.x2 ∧ bx.y1 ≤ (y:ℤ) ∧ (y:ℤ) < bx.y2)) :
    (blurFaces faces img).pix x y = img.pix x y ∧
    (∀ (bx : IBox) (u v : ℕ),
      bx.x1 ≤ (u:ℤ) → (u:ℤ) < bx.x2 → bx.y1 ≤ (v:ℤ) → (v:ℤ) < bx.y2 →
      (blurFaces [bx] img).pix u v =
        (gaussianBlur (extractRegion img bx.x1.toNat bx.y1.toNat bx.x2.toNat
          bx.y2.toNat)).pix (u - bx.x1.toNat) (v - bx.y1.toNat)) := by
  constructor
  · exact blurFaces_outside x y faces img houts
  · intro bx u v h1 h2 h3 h4
    rw [blurFaces, List.foldl_cons, List.foldl_nil, writeRegion]
    simp only
    rw [if_pos (by refine ⟨?_, ?_, ?_, ?_⟩ <;> omega)]

/-- Concrete instantiation of the amended C5: the pixel (5, 5) outside the
box (0,0)-(2,2) is unchanged by the blur. -/
theorem blur_pixels_amended_witness :
    (blurFaces [⟨0, 0, 2, 2⟩] testImg).pix 5 5 = testImg.pix 5 5 :=
  (blur_pixels_amended [⟨0, 0, 2, 2⟩] testImg 5 5
    (by intro bx hb; fin_cases hb; refine ⟨by decide, by decide, ?_, by decide, by decide, ?_⟩ <;> decide)
    (by intro bx hb; fin_cases hb; decide)).1
